import Mathlib

set_option maxHeartbeats 1000000

/-!
Verification development for the minidrone-js enumeration library.

The embedding covers the two source files of the repository:
the Enum class (three construction modes, freeze on construct, key and
value introspection, reverse lookup) and the InvalidCommandError message
formatting (with its d2h hex helper).

Computed members (JavaScript getter functions) may have side effects, so
reads are modelled as state transformers over an abstract state type sigma:
a getter is a function from the state to a value and a successor state,
and every property read threads the state.  Fixed members ignore the state.

Machine-level JavaScript semantics modelled explicitly:
  - Object.defineProperty with a descriptor that omits configurable and
    writable creates a non-configurable, non-writable property; redefining
    such a property succeeds (as a silent no-op) only when the new
    descriptor carries the very same value (SameValue), and otherwise
    throws a TypeError.  Two distinct closures are never SameValue, so a
    getter redefinition is modelled as always rejected.
  - Object.freeze makes the object non-extensible, so defining a fresh key
    afterwards also throws.
-/

/-- JavaScript primitive values as they occur in this library: numbers
(integers only are ever produced by the code), strings, booleans and
undefined.  Strict equality (triple equals) on these primitives is
structural equality with no cross-type coercion, which is exactly the
derived decidable equality of this type. -/
inductive JSVal where
  | num : Int → JSVal
  | str : String → JSVal
  | bool : Bool → JSVal
  | undef : JSVal
deriving DecidableEq

/-- A property of an Enum instance: either a fixed data member holding a
value, or a computed member (a JavaScript getter) that is re-invoked on
every read, modelled as a state transformer. -/
inductive Member (σ : Type) where
  | value : JSVal → Member σ
  | get : (σ → JSVal × σ) → Member σ

/-- An Enum instance: its own enumerable properties in insertion order
(keys are unique once construction succeeds) together with the
extensibility flag that Object.freeze clears. -/
structure Enum (σ : Type) where
  props : List (String × Member σ)
  extensible : Bool

/-- An entry of a mapping (object literal) input: the constructor
dispatches on typeof, turning functions into getters and everything else
into plain values. -/
inductive ObjEntry (σ : Type) where
  | val : JSVal → ObjEntry σ
  | fn : (σ → JSVal × σ) → ObjEntry σ

/-- The two input shapes accepted by the Enum constructor: an ordered
sequence of strings, or a mapping from keys to entries.  Object.keys of a
JavaScript object yields each key once, in insertion order; the list in
the object case is that key sequence. -/
inductive EnumInput (σ : Type) where
  | array : List String → EnumInput σ
  | object : List (String × ObjEntry σ) → EnumInput σ

/-- First property bound to a key, in insertion order, mirroring property
lookup on the object own-property table. -/
def findProp? {σ : Type} : List (String × Member σ) → String → Option (Member σ)
  | [], _ => none
  | (k2, m) :: rest, k => if k2 = k then some m else findProp? rest k

/-- SameValue comparison of two property definitions, as used by
ValidateAndApplyPropertyDescriptor on a non-configurable non-writable data
property: allowed only when the values coincide.  Distinct closures are
never SameValue, so pairs involving a getter are rejected. -/
def memberSame {σ : Type} : Member σ → Member σ → Bool
  | Member.value v, Member.value w => decide (v = w)
  | _, _ => false

/-- Object.defineProperty with an enumerable, non-configurable,
non-writable descriptor: a fresh key is appended when the object is
extensible, redefining an existing key is a no-op when the definition is
SameValue-identical and a TypeError (none) otherwise. -/
def defineOwnProperty {σ : Type} (o : Enum σ) (k : String) (m : Member σ) : Option (Enum σ) :=
  match findProp? o.props k with
  | some old => if memberSame old m then some o else none
  | none => if o.extensible then some (Enum.mk (o.props ++ [(k, m)]) o.extensible) else none

/-- Constructor loop for iota mode: for each key, read the static iota
getter (which returns the counter and increments it, even when the
subsequent defineProperty throws) and define the key with that value.
An error result carries the partially built instance at the throw. -/
def iotaLoop {σ : Type} : List String → Enum σ → Nat → (Except (Enum σ) (Enum σ)) × Nat
  | [], o, n => (Except.ok o, n)
  | k :: rest, o, n =>
    match defineOwnProperty o k (Member.value (JSVal.num (n : Int))) with
    | some o2 => iotaLoop rest o2 (n + 1)
    | none => (Except.error o, n + 1)

/-- Constructor loop for auto mode: each row is normalized by the external
constant-case function cc to obtain the key, and the original row string
is stored as the value. -/
def autoLoop {σ : Type} (cc : String → String) : List String → Enum σ → Except (Enum σ) (Enum σ)
  | [], o => Except.ok o
  | row :: rest, o =>
    match defineOwnProperty o (cc row) (Member.value (JSVal.str row)) with
    | some o2 => autoLoop cc rest o2
    | none => Except.error o

/-- The member a mapping entry defines: functions become getters, all
other values become fixed data members. -/
def objEntryMember {σ : Type} : ObjEntry σ → Member σ
  | ObjEntry.val v => Member.value v
  | ObjEntry.fn f => Member.get f

/-- Constructor loop for mapping mode: each key of the input object is
defined with a getter or a value according to the typeof dispatch. -/
def objectLoop {σ : Type} : List (String × ObjEntry σ) → Enum σ → Except (Enum σ) (Enum σ)
  | [], o => Except.ok o
  | (k, ent) :: rest, o =>
    match defineOwnProperty o k (objEntryMember ent) with
    | some o2 => objectLoop rest o2
    | none => Except.error o

/-- The Enum constructor.  The auto flag with a non-array input throws a
TypeError before any property is defined; otherwise the branch for the
input shape runs and Object.freeze seals the instance on success.  The
global iota counter is threaded in and out (it only advances in iota
mode).  A thrown TypeError is the error case, carrying the properties
defined up to the throw. -/
def Enum.construct {σ : Type} (cc : String → String) (input : EnumInput σ) (auto : Bool)
    (iota : Nat) : Except (List (String × Member σ)) (Enum σ) × Nat :=
  match input with
  | EnumInput.object entries =>
    if auto then (Except.error [], iota)
    else
      match objectLoop entries (Enum.mk [] true) with
      | Except.ok o => (Except.ok (Enum.mk o.props false), iota)
      | Except.error o => (Except.error o.props, iota)
  | EnumInput.array rows =>
    if auto then
      match autoLoop cc rows (Enum.mk [] true) with
      | Except.ok o => (Except.ok (Enum.mk o.props false), iota)
      | Except.error o => (Except.error o.props, iota)
    else
      match iotaLoop rows (Enum.mk [] true) iota with
      | (Except.ok o, n2) => (Except.ok (Enum.mk o.props false), n2)
      | (Except.error o, n2) => (Except.error o.props, n2)

/-- Property read on an instance: a fixed member yields its stored value
and leaves the state alone, a computed member invokes its getter afresh.
A missing key reads as undefined. -/
def Enum.read {σ : Type} (e : Enum σ) (k : String) (s : σ) : JSVal × σ :=
  match findProp? e.props k with
  | some (Member.value v) => (v, s)
  | some (Member.get f) => f s
  | none => (JSVal.undef, s)

/-- Object.keys of the instance: its own enumerable keys in insertion
order. -/
def Enum.keys {σ : Type} (e : Enum σ) : List String :=
  e.props.map Prod.fst

/-- Reads a list of keys left to right, threading the state through the
getters, mirroring keys-dot-map over property access. -/
def readList {σ : Type} (e : Enum σ) : List String → σ → List JSVal × σ
  | [], s => ([], s)
  | k :: ks, s =>
    let p := Enum.read e k s
    let q := readList e ks p.2
    (p.1 :: q.1, q.2)

/-- All resolved values of the instance in declaration order, at the given
state. -/
def Enum.readAll {σ : Type} (e : Enum σ) (s : σ) : List JSVal × σ :=
  readList e e.keys s

/-- Array.prototype.indexOf restricted to the values that occur here:
index of the first strictly equal element, list length when absent. -/
def jsIndexOf (v : JSVal) : List JSVal → Nat
  | [] => 0
  | w :: rest => if w = v then 0 else jsIndexOf v rest + 1

/-- The filter callback of Enum.values keeps the element at index i
exactly when indexOf over the whole mapped array returns i.  This walks
the array with its running index against the fixed original array. -/
def jsDedupFrom (orig : List JSVal) : Nat → List JSVal → List JSVal
  | _, [] => []
  | i, v :: rest =>
    if jsIndexOf v orig = i then v :: jsDedupFrom orig (i + 1) rest
    else jsDedupFrom orig (i + 1) rest

/-- The deduplication performed by Enum.values: filter with the callback
comparing indexOf with the running index. -/
def jsDedup (l : List JSVal) : List JSVal :=
  jsDedupFrom l 0 l

/-- Enum.values: map every key to its current resolved value (invoking
getters in declaration order) and drop duplicate values, keeping first
occurrences. -/
def Enum.values {σ : Type} (e : Enum σ) (s : σ) : List JSVal × σ :=
  let p := Enum.readAll e s
  (jsDedup p.1, p.2)

/-- Enum.hasKey: membership of the name among the declared keys. -/
def Enum.hasKey {σ : Type} (e : Enum σ) (name : String) : Bool :=
  (Enum.keys e).contains name

/-- Enum.hasValue: membership of the value in the resolved values at call
time, by strict equality. -/
def Enum.hasValue {σ : Type} (e : Enum σ) (v : JSVal) (s : σ) : Bool × σ :=
  let p := Enum.values e s
  (p.1.any (fun w => decide (w = v)), p.2)

/-- Array.prototype.findIndex with a strict equality test: position of the
first match, none standing for the minus-one result. -/
def jsFindIndex (v : JSVal) : List JSVal → Option Nat
  | [] => none
  | w :: rest => if w = v then some 0 else (jsFindIndex v rest).map (fun i => i + 1)

/-- Enum.findForValue: resolve every value (invoking getters in
declaration order), find the index of the first strict match, and index
the key array with it; indexing with minus one yields undefined, modelled
as none. -/
def Enum.findForValue {σ : Type} (e : Enum σ) (v : JSVal) (s : σ) : Option String × σ :=
  let p := Enum.readAll e s
  match jsFindIndex v p.1 with
  | some i => ((Enum.keys e)[i]?, p.2)
  | none => (none, p.2)

/-- Lowercase base-16 digit character, as produced by Number.toString
with radix sixteen. -/
def hexDigit (n : Nat) : Char :=
  if n < 10 then Char.ofNat (48 + n) else Char.ofNat (87 + n)

/-- Digit list of d in base sixteen, most significant first, with a fuel
argument large enough for every input considered (fuel bounds the number
of digits, and d + 1 always suffices). -/
def natToHexCore : Nat → Nat → List Char
  | _, 0 => []
  | d, fuel + 1 =>
    if d < 16 then [hexDigit d]
    else natToHexCore (d / 16) fuel ++ [hexDigit (d % 16)]

/-- Number.toString with radix sixteen on a non-negative integer:
lowercase hex digits, no leading zeros, a single zero digit for zero. -/
def natToHex (d : Nat) : String :=
  String.mk (natToHexCore d (d + 1))

/-- The d2h helper of InvalidCommandError: hex rendering left-padded with
a zero when it is a single digit. -/
def d2h (d : Nat) : String :=
  let h := natToHex d
  if h.length = 1 then "0" ++ h else h

/-- Target identity handed to InvalidCommandError: the typeof dispatch in
the constructor distinguishes numbers from everything else, and every
non-number target is rendered through string interpolation; the spec
restricts numeric targets to non-negative integers. -/
inductive ErrTarget where
  | num : Nat → ErrTarget
  | str : String → ErrTarget

/-- The message built by the InvalidCommandError constructor: the target
clause by typeof dispatch, the type label prefix, and the joined context
appended only when the context array is non-empty. -/
def invalidCommandMessage (ty : String) (target : ErrTarget) (context : List String) : String :=
  let m := match target with
    | ErrTarget.num d => "with the value " ++ d2h d
    | ErrTarget.str t => "called \"" ++ t ++ "\""
  let m2 := "Can\x27t find " ++ ty ++ " " ++ m
  if context.length > 0 then m2 ++ " (" ++ String.intercalate ", " context ++ ")" else m2

/-- Modelled from the spec: the key normalization performed by the
external case library (its constant function), which is a dependency and
not part of the repository sources.  Per the spec it is a
case-and-symbol normalization into an upper-snake-case identifier:
alphanumeric characters are uppercased, separator characters and
lower-to-upper camel boundaries contribute a single underscore. -/
def ccAux : Option Char → Bool → List Char → List Char
  | _, _, [] => []
  | prevAlnum, pending, c :: rest =>
    if c.isAlpha || c.isDigit then
      let camel := match prevAlnum with
        | some p => p.isLower && c.isUpper
        | none => false
      let sep := (pending || camel) && prevAlnum.isSome
      (if sep then ['_', c.toUpper] else [c.toUpper]) ++ ccAux (some c) false rest
    else
      ccAux prevAlnum true rest

/-- Modelled from the spec: upper-snake-case normalization of a string,
standing in for the external constant-case dependency. -/
def constantCase (s : String) : String :=
  String.mk (ccAux none false s.data)

/-- Property list produced by a successful iota-mode construction starting
at counter value n. -/
def iotaProps {σ : Type} : List String → Nat → List (String × Member σ)
  | [], _ => []
  | k :: rest, n => (k, Member.value (JSVal.num (n : Int))) :: iotaProps rest (n + 1)

/-- Value of a fixed member, with undefined as the placeholder for the
getter case (never used on getters below). -/
def memberVal {σ : Type} : Member σ → JSVal
  | Member.value v => v
  | Member.get _ => JSVal.undef

/-- Stated from the spec: the ordered sequence of distinct values, keeping
the first occurrence of every value and dropping later duplicates.  Used
as the comparison point for the indexOf-based filter in the source. -/
def specDistinctFirst : List JSVal → List JSVal
  | [] => []
  | v :: rest => v :: specDistinctFirst (rest.filter (fun w => decide (w ≠ v)))
termination_by l => l.length
decreasing_by
  simp only [List.length_cons]
  exact Nat.lt_succ_of_le (List.length_filter_le _ _)

/-! Helper lemmas about property lookup. -/

theorem findProp?_append {σ : Type} (a b : List (String × Member σ)) (k : String) :
    findProp? (a ++ b) k = match findProp? a k with
      | some m => some m
      | none => findProp? b k := by
  induction a with
  | nil => simp [findProp?]
  | cons p rest ih =>
    obtain ⟨k2, m⟩ := p
    by_cases hk : k2 = k <;> simp [findProp?, hk, ih]

theorem findProp?_eq_none_iff {σ : Type} (ps : List (String × Member σ)) (k : String) :
    findProp? ps k = none ↔ k ∉ ps.map Prod.fst := by
  induction ps with
  | nil => simp [findProp?]
  | cons p rest ih =>
    obtain ⟨k2, m⟩ := p
    by_cases hk : k2 = k
    · subst hk
      simp [findProp?]
    · simp only [findProp?, if_neg hk, ih, List.map_cons, List.mem_cons]
      constructor
      · intro h hor
        rcases hor with h1 | h2
        · exact hk h1.symm
        · exact h h2
      · intro h hmem
        exact h (Or.inr hmem)

theorem mem_of_findProp? {σ : Type} (ps : List (String × Member σ)) (k : String)
    (m : Member σ) (h : findProp? ps k = some m) : (k, m) ∈ ps := by
  induction ps with
  | nil => simp [findProp?] at h
  | cons p rest ih =>
    obtain ⟨k2, m2⟩ := p
    by_cases hk : k2 = k
    · subst hk
      simp [findProp?] at h
      subst h
      exact List.mem_cons_self _ _
    · simp only [findProp?, if_neg hk] at h
      exact List.mem_cons_of_mem _ (ih h)

theorem findProp?_of_mem_nodup {σ : Type} (ps : List (String × Member σ)) (k : String)
    (m : Member σ) (hmem : (k, m) ∈ ps) (hnd : (ps.map Prod.fst).Nodup) :
    findProp? ps k = some m := by
  induction ps with
  | nil => simp at hmem
  | cons p rest ih =>
    obtain ⟨k2, m2⟩ := p
    simp only [List.map_cons, List.nodup_cons] at hnd
    rcases List.mem_cons.1 hmem with heq | hrest
    · injection heq with h1 h2
      subst h1
      subst h2
      simp [findProp?]
    · have hk2 : k2 ≠ k := by
        intro hk
        subst hk
        exact hnd.1 (List.mem_map.2 ⟨(k2, m), hrest, rfl⟩)
      simp only [findProp?, if_neg hk2]
      exact ih hrest hnd.2

/-! The values defined by iota mode, and reading instances whose members
are all fixed values. -/

theorem iotaProps_map_fst {σ : Type} (ks : List String) (n : Nat) :
    (iotaProps (σ := σ) ks n).map Prod.fst = ks := by
  induction ks generalizing n with
  | nil => rfl
  | cons k rest ih => simp [iotaProps, ih]

theorem iotaProps_map_val {σ : Type} (ks : List String) (n : Nat) :
    (iotaProps (σ := σ) ks n).map (fun p => memberVal p.2)
      = (List.range ks.length).map (fun i => JSVal.num ((n + i : Nat) : Int)) := by
  induction ks generalizing n with
  | nil => rfl
  | cons k rest ih =>
    rw [List.length_cons, List.range_succ_eq_map, List.map_cons, List.map_map]
    show JSVal.num ((n : Int))
        :: (iotaProps (σ := σ) rest (n + 1)).map (fun p => memberVal p.2) = _
    rw [ih (n + 1)]
    refine List.cons_eq_cons.2 ⟨?_, ?_⟩
    · norm_num
    · refine List.map_congr_left ?_
      intro i _
      have he : n + 1 + i = n + (i + 1) := by omega
      simp [Function.comp, he, Nat.succ_eq_add_one]

theorem readList_spec {σ : Type} (e : Enum σ) (qs : List (String × Member σ)) (s : σ)
    (h : ∀ p ∈ qs, ∃ v, p.2 = Member.value v ∧ findProp? e.props p.1 = some (Member.value v)) :
    readList e (qs.map Prod.fst) s = (qs.map (fun p => memberVal p.2), s) := by
  induction qs generalizing s with
  | nil => rfl
  | cons p rest ih =>
    obtain ⟨v, hv, hfind⟩ := h p (List.mem_cons_self p rest)
    have hread : Enum.read e p.1 s = (v, s) := by
      simp [Enum.read, hfind]
    have htail := ih s (fun q hq => h q (List.mem_cons_of_mem _ hq))
    simp [List.map_cons, readList, hread, htail, hv, memberVal]

theorem readAll_of_value_props {σ : Type} (e : Enum σ)
    (hnd : (e.props.map Prod.fst).Nodup)
    (hv : ∀ p ∈ e.props, ∃ v, p.2 = Member.value v) (s : σ) :
    Enum.readAll e s = (e.props.map (fun p => memberVal p.2), s) := by
  have h : ∀ p ∈ e.props, ∃ v, p.2 = Member.value v
      ∧ findProp? e.props p.1 = some (Member.value v) := by
    intro p hp
    obtain ⟨v, hveq⟩ := hv p hp
    refine ⟨v, hveq, ?_⟩
    have h2 : (p.1, p.2) ∈ e.props := by simpa using hp
    rw [hveq] at h2
    exact findProp?_of_mem_nodup _ _ _ h2 hnd
  exact readList_spec e e.props s h

theorem readList_length {σ : Type} (e : Enum σ) (ks : List String) (s : σ) :
    (readList e ks s).1.length = ks.length := by
  induction ks generalizing s with
  | nil => rfl
  | cons k rest ih => simp [readList, ih]

/-! Success analysis of the iota-mode constructor loop. -/

theorem iotaProps_values {σ : Type} (ks : List String) (n : Nat) (p : String × Member σ)
    (hp : p ∈ iotaProps (σ := σ) ks n) : ∃ v, p.2 = Member.value v := by
  induction ks generalizing n with
  | nil => simp [iotaProps] at hp
  | cons k rest ih =>
    simp only [iotaProps] at hp
    rcases List.mem_cons.1 hp with heq | hrest
    · exact ⟨JSVal.num (n : Int), by rw [heq]⟩
    · exact ih (n + 1) hrest

theorem iotaLoop_ok_spec {σ : Type} (e : Enum σ) (m : Nat) (ks : List String) (o : Enum σ)
    (n : Nat)
    (hvals : ∀ p ∈ o.props, ∃ v : Nat, p.2 = Member.value (JSVal.num (v : Int)) ∧ v < n)
    (hext : o.extensible = true)
    (h : iotaLoop ks o n = (Except.ok e, m)) :
    e.props = o.props ++ iotaProps ks n ∧ e.extensible = true ∧ m = n + ks.length
      ∧ ks.Nodup ∧ (∀ p ∈ o.props, p.1 ∉ ks) := by
  induction ks generalizing o n with
  | nil =>
    simp only [iotaLoop, Prod.mk.injEq, Except.ok.injEq] at h
    obtain ⟨rfl, rfl⟩ := h
    simp [iotaProps, hext]
  | cons k rest ih =>
    simp only [iotaLoop] at h
    rcases hfind : findProp? o.props k with _ | old
    · have hdef : defineOwnProperty o k (Member.value (JSVal.num (n : Int)))
          = some (Enum.mk (o.props ++ [(k, Member.value (JSVal.num (n : Int)))]) true) := by
        rw [defineOwnProperty, hfind]
        simp [hext]
      rw [hdef] at h
      replace h : iotaLoop rest
          (Enum.mk (o.props ++ [(k, Member.value (JSVal.num (n : Int)))]) true) (n + 1)
          = (Except.ok e, m) := h
      have hvals2 : ∀ p ∈ (Enum.mk (o.props ++ [(k, Member.value (JSVal.num (n : Int)))]) true).props,
          ∃ v : Nat, p.2 = Member.value (JSVal.num (v : Int)) ∧ v < n + 1 := by
        intro p hp
        rcases List.mem_append.1 hp with hl | hr
        · obtain ⟨v, hv1, hv2⟩ := hvals p hl
          exact ⟨v, hv1, by omega⟩
        · simp only [List.mem_singleton] at hr
          subst hr
          exact ⟨n, rfl, by omega⟩
      obtain ⟨hprops, hext2, hm, hnd, hnotin⟩ := ih _ (n + 1) hvals2 rfl h
      simp only at hprops hnotin
      refine ⟨?_, hext2, ?_, ?_, ?_⟩
      · rw [hprops]
        simp [iotaProps, List.append_assoc]
      · simp only [List.length_cons]
        omega
      · refine List.nodup_cons.2 ⟨?_, hnd⟩
        exact hnotin (k, Member.value (JSVal.num (n : Int)))
          (List.mem_append.2 (Or.inr (List.mem_singleton.2 rfl)))
      · intro p hp
        refine List.not_mem_cons_of_ne_of_not_mem ?_
          (hnotin p (List.mem_append.2 (Or.inl hp)))
        intro hpk
        rw [findProp?_eq_none_iff] at hfind
        exact hfind (hpk ▸ List.mem_map.2 ⟨p, hp, rfl⟩)
    · obtain ⟨v, hv1, hv2⟩ := hvals (k, old) (mem_of_findProp? _ _ _ hfind)
      simp only at hv1
      have hms : memberSame old (Member.value (JSVal.num (n : Int))) = false := by
        rw [hv1]
        have hne : JSVal.num (v : Int) ≠ JSVal.num (n : Int) := by
          intro heq
          have := JSVal.num.inj heq
          omega
        simp [memberSame, hne]
      have hdef : defineOwnProperty o k (Member.value (JSVal.num (n : Int))) = none := by
        rw [defineOwnProperty, hfind]
        show (if memberSame old (Member.value (JSVal.num (n : Int))) = true
          then some o else none) = none
        rw [hms]
        simp
      rw [hdef] at h
      replace h : (Except.error o, n + 1) = (Except.ok e, m) := h
      simp at h

theorem construct_iota_ok {σ : Type} (cc : String → String) (ks : List String) (n : Nat)
    (e : Enum σ) (m : Nat)
    (h : Enum.construct cc (EnumInput.array ks) false n = (Except.ok e, m)) :
    e.props = iotaProps ks n ∧ e.extensible = false ∧ m = n + ks.length ∧ ks.Nodup := by
  rw [Enum.construct] at h
  simp only [Bool.false_eq_true, if_false] at h
  rcases hloop : iotaLoop (σ := σ) ks (Enum.mk [] true) n with ⟨res, n2⟩
  rcases res with o | o
  · rw [hloop] at h
    simp at h
  · rw [hloop] at h
    simp only [Prod.mk.injEq, Except.ok.injEq] at h
    obtain ⟨he, hm⟩ := h
    obtain ⟨hprops, _, hm2, hnd, _⟩ :=
      iotaLoop_ok_spec o n2 ks (Enum.mk [] true) n (by simp) rfl hloop
    subst he
    subst hm
    simp only [List.nil_append] at hprops
    exact ⟨hprops, rfl, hm2, hnd⟩

theorem construct_iota_readAll {σ : Type} (cc : String → String) (ks : List String) (n : Nat)
    (e : Enum σ) (m : Nat)
    (h : Enum.construct cc (EnumInput.array ks) false n = (Except.ok e, m)) (s : σ) :
    Enum.readAll e s
      = ((List.range ks.length).map (fun i => JSVal.num ((n + i : Nat) : Int)), s) := by
  obtain ⟨hprops, _, _, hnd⟩ := construct_iota_ok cc ks n e m h
  have hnd2 : (e.props.map Prod.fst).Nodup := by
    rw [hprops, iotaProps_map_fst]
    exact hnd
  have hv : ∀ p ∈ e.props, ∃ v, p.2 = Member.value v := by
    intro p hp
    rw [hprops] at hp
    exact iotaProps_values ks n p hp
  rw [readAll_of_value_props e hnd2 hv s, hprops, iotaProps_map_val]

/-! Analysis of the auto-mode constructor loop. -/

theorem defineOwnProperty_cases {σ : Type} (o o2 : Enum σ) (k : String) (m : Member σ)
    (h : defineOwnProperty o k m = some o2) :
    (∃ old, findProp? o.props k = some old ∧ memberSame old m = true ∧ o2 = o)
    ∨ (findProp? o.props k = none ∧ o.extensible = true
        ∧ o2 = Enum.mk (o.props ++ [(k, m)]) true) := by
  rw [defineOwnProperty] at h
  rcases hfind : findProp? o.props k with _ | old
  · rw [hfind] at h
    replace h : (if o.extensible = true
        then some (Enum.mk (o.props ++ [(k, m)]) o.extensible) else none) = some o2 := h
    rcases hext : o.extensible with _ | _
    · rw [hext] at h
      simp at h
    · rw [hext] at h
      simp only [if_true, Option.some.injEq] at h
      exact Or.inr ⟨rfl, rfl, h.symm⟩
  · rw [hfind] at h
    replace h : (if memberSame old m = true then some o else none) = some o2 := h
    rcases hms : memberSame old m with _ | _
    · rw [hms] at h
      simp at h
    · rw [hms] at h
      simp only [if_true, Option.some.injEq] at h
      exact Or.inl ⟨old, rfl, hms, h.symm⟩

theorem memberSame_value {σ : Type} (old : Member σ) (v : JSVal)
    (h : memberSame old (Member.value v) = true) : old = Member.value v := by
  cases old with
  | value w =>
    simp only [memberSame, decide_eq_true_eq] at h
    rw [h]
  | get f => simp [memberSame] at h

theorem findProp?_append_left {σ : Type} (a b : List (String × Member σ)) (k : String)
    (m : Member σ) (h : findProp? a k = some m) : findProp? (a ++ b) k = some m := by
  rw [findProp?_append, h]

theorem autoLoop_mono {σ : Type} (cc : String → String) (rows : List String) (o q : Enum σ)
    (h : autoLoop cc rows o = Except.ok q) (k : String) (m : Member σ)
    (hfind : findProp? o.props k = some m) : findProp? q.props k = some m := by
  induction rows generalizing o with
  | nil =>
    simp only [autoLoop, Except.ok.injEq] at h
    rw [← h]
    exact hfind
  | cons row rest ih =>
    simp only [autoLoop] at h
    rcases hdef : defineOwnProperty o (cc row) (Member.value (JSVal.str row)) with _ | o2
    · rw [hdef] at h
      replace h : (Except.error o : Except (Enum σ) (Enum σ)) = Except.ok q := h
      simp at h
    · rw [hdef] at h
      replace h : autoLoop cc rest o2 = Except.ok q := h
      rcases defineOwnProperty_cases o o2 (cc row) _ hdef with ⟨old, _, _, rfl⟩ | ⟨_, _, rfl⟩
      · exact ih _ h hfind
      · exact ih _ h (findProp?_append_left _ _ _ _ hfind)

theorem autoLoop_ok_compat {σ : Type} (cc : String → String) (rows : List String) (o q : Enum σ)
    (h : autoLoop cc rows o = Except.ok q) (r : String) (hr : r ∈ rows) (m : Member σ)
    (hfind : findProp? o.props (cc r) = some m) : m = Member.value (JSVal.str r) := by
  induction rows generalizing o with
  | nil => simp at hr
  | cons row rest ih =>
    simp only [autoLoop] at h
    rcases hdef : defineOwnProperty o (cc row) (Member.value (JSVal.str row)) with _ | o2
    · rw [hdef] at h
      replace h : (Except.error o : Except (Enum σ) (Enum σ)) = Except.ok q := h
      simp at h
    · rw [hdef] at h
      replace h : autoLoop cc rest o2 = Except.ok q := h
      rcases List.mem_cons.1 hr with rfl | hrest
      · rcases defineOwnProperty_cases o o2 (cc r) _ hdef with ⟨old, hold, hsame, _⟩ | ⟨hnone, _, _⟩
        · rw [hold] at hfind
          injection hfind with hfind
          subst hfind
          exact memberSame_value _ _ hsame
        · rw [hnone] at hfind
          exact absurd hfind (by simp)
      · rcases defineOwnProperty_cases o o2 (cc row) _ hdef with ⟨old, _, _, rfl⟩ | ⟨_, _, rfl⟩
        · exact ih _ h hrest hfind
        · exact ih _ h hrest (findProp?_append_left _ _ _ _ hfind)

theorem autoLoop_ok_binding {σ : Type} (cc : String → String) (rows : List String) (o q : Enum σ)
    (h : autoLoop cc rows o = Except.ok q) (r : String) (hr : r ∈ rows) :
    findProp? q.props (cc r) = some (Member.value (JSVal.str r)) := by
  induction rows generalizing o with
  | nil => simp at hr
  | cons row rest ih =>
    simp only [autoLoop] at h
    rcases hdef : defineOwnProperty o (cc row) (Member.value (JSVal.str row)) with _ | o2
    · rw [hdef] at h
      replace h : (Except.error o : Except (Enum σ) (Enum σ)) = Except.ok q := h
      simp at h
    · rw [hdef] at h
      replace h : autoLoop cc rest o2 = Except.ok q := h
      rcases List.mem_cons.1 hr with rfl | hrest
      · have hbind : findProp? o2.props (cc r) = some (Member.value (JSVal.str r)) := by
          rcases defineOwnProperty_cases o o2 (cc r) _ hdef
            with ⟨old, hold, hsame, rfl⟩ | ⟨hnone, _, rfl⟩
          · rw [hold, memberSame_value _ _ hsame]
          · show findProp? (o.props ++ [(cc r, Member.value (JSVal.str r))]) (cc r) = _
            rw [findProp?_append, hnone]
            simp [findProp?]
        exact autoLoop_mono cc rest o2 q h _ _ hbind
      · exact ih _ h hrest

theorem autoLoop_ok_shape {σ : Type} (cc : String → String) (rows : List String) (o : Enum σ)
    (hnd : (rows.map cc).Nodup)
    (hfresh : ∀ r ∈ rows, findProp? o.props (cc r) = none)
    (hext : o.extensible = true) :
    autoLoop cc rows o
      = Except.ok (Enum.mk
          (o.props ++ rows.map (fun r => (cc r, Member.value (JSVal.str r)))) true) := by
  induction rows generalizing o with
  | nil =>
    simp only [autoLoop, List.map_nil, List.append_nil]
    rw [show Enum.mk o.props true = o by rw [← hext]]
  | cons row rest ih =>
    have hndc := hnd
    rw [List.map_cons, List.nodup_cons] at hndc
    have hdef : defineOwnProperty o (cc row) (Member.value (JSVal.str row))
        = some (Enum.mk (o.props ++ [(cc row, Member.value (JSVal.str row))]) true) := by
      rw [defineOwnProperty, hfresh row (List.mem_cons_self _ _)]
      simp [hext]
    simp only [autoLoop]
    rw [hdef]
    show autoLoop cc rest (Enum.mk (o.props ++ [(cc row, Member.value (JSVal.str row))]) true) = _
    rw [ih (Enum.mk (o.props ++ [(cc row, Member.value (JSVal.str row))]) true) hndc.2 ?_ rfl]
    · simp [List.append_assoc]
    · intro r hr
      show findProp? (o.props ++ [(cc row, Member.value (JSVal.str row))]) (cc r) = none
      rw [findProp?_append]
      rw [hfresh r (List.mem_cons_of_mem _ hr)]
      have hne : ¬ cc row = cc r := by
        intro heq
        exact hndc.1 (heq ▸ List.mem_map.2 ⟨r, hr, rfl⟩)
      simp [findProp?, hne]

theorem autoLoop_ok_mapcc_nodup {σ : Type} (cc : String → String) (rows : List String)
    (o q : Enum σ) (h : autoLoop cc rows o = Except.ok q) (hnd : rows.Nodup)
    (hfresh : ∀ r ∈ rows, findProp? o.props (cc r) = none) :
    (rows.map cc).Nodup := by
  induction rows generalizing o with
  | nil => simp
  | cons row rest ih =>
    simp only [autoLoop] at h
    have hext : o.extensible = true := by
      cases hob : o.extensible with
      | true => rfl
      | false =>
        have hdefn : defineOwnProperty o (cc row) (Member.value (JSVal.str row)) = none := by
          rw [defineOwnProperty, hfresh row (List.mem_cons_self _ _), hob]
          simp
        rw [hdefn] at h
        replace h : (Except.error o : Except (Enum σ) (Enum σ)) = Except.ok q := h
        simp at h
    have hdef : defineOwnProperty o (cc row) (Member.value (JSVal.str row))
        = some (Enum.mk (o.props ++ [(cc row, Member.value (JSVal.str row))]) true) := by
      rw [defineOwnProperty, hfresh row (List.mem_cons_self _ _)]
      simp [hext]
    rw [hdef] at h
    replace h : autoLoop cc rest
        (Enum.mk (o.props ++ [(cc row, Member.value (JSVal.str row))]) true) = Except.ok q := h
    have hnotail : ∀ r ∈ rest, cc r ≠ cc row := by
      intro r hr heq
      have hbind : findProp? (o.props ++ [(cc row, Member.value (JSVal.str row))]) (cc r)
          = some (Member.value (JSVal.str row)) := by
        rw [findProp?_append, hfresh r (List.mem_cons_of_mem _ hr), heq]
        simp [findProp?]
      have hcp := autoLoop_ok_compat cc rest _ q h r hr _ hbind
      injection hcp with hv
      injection hv with hs
      exact (List.nodup_cons.1 hnd).1 (hs ▸ hr)
    have hfresh2 : ∀ r ∈ rest,
        findProp? (o.props ++ [(cc row, Member.value (JSVal.str row))]) (cc r) = none := by
      intro r hr
      rw [findProp?_append, hfresh r (List.mem_cons_of_mem _ hr)]
      have hne2 : ¬ cc row = cc r := fun heq => hnotail r hr heq.symm
      simp [findProp?, hne2]
    have htail := ih _ h (List.nodup_cons.1 hnd).2 hfresh2
    refine List.nodup_cons.2 ⟨?_, htail⟩
    intro hmem
    obtain ⟨r, hr, heq⟩ := List.mem_map.1 hmem
    exact hnotail r hr heq

theorem construct_auto_ok {σ : Type} (cc : String → String) (rows : List String) (n : Nat)
    (e : Enum σ) (m : Nat) (hnd : rows.Nodup)
    (h : Enum.construct cc (EnumInput.array rows) true n = (Except.ok e, m)) :
    e.props = rows.map (fun r => (cc r, Member.value (JSVal.str r)))
      ∧ e.extensible = false ∧ m = n ∧ (rows.map cc).Nodup := by
  rw [Enum.construct] at h
  simp only [if_true] at h
  rcases hloop : autoLoop (σ := σ) cc rows (Enum.mk [] true) with o | o
  · rw [hloop] at h
    simp at h
  · rw [hloop] at h
    simp only [Prod.mk.injEq, Except.ok.injEq] at h
    obtain ⟨he, hm⟩ := h
    have hccnd : (rows.map cc).Nodup :=
      autoLoop_ok_mapcc_nodup cc rows (Enum.mk [] true) o hloop hnd (fun r hr => rfl)
    have hshape := autoLoop_ok_shape (σ := σ) cc rows (Enum.mk [] true) hccnd (fun r hr => rfl) rfl
    rw [hloop] at hshape
    injection hshape with hshape
    have hop : o.props = rows.map (fun r => (cc r, Member.value (JSVal.str r))) := by
      rw [hshape]
      simp
    refine ⟨?_, ?_, hm.symm, hccnd⟩
    · rw [← he]
      exact hop
    · rw [← he]

/-! The deduplication of Enum.values: bridge between the indexOf-based
filter of the source and the first-occurrence description of the spec. -/

theorem jsIndexOf_cons_self (v : JSVal) (l : List JSVal) : jsIndexOf v (v :: l) = 0 := by
  simp [jsIndexOf]

theorem jsIndexOf_lt_length (v : JSVal) (l : List JSVal) (h : v ∈ l) :
    jsIndexOf v l < l.length := by
  induction l with
  | nil => simp at h
  | cons w rest ih =>
    by_cases hw : w = v
    · simp [jsIndexOf, hw]
    · rcases List.mem_cons.1 h with heq | hrest
      · exact absurd heq.symm hw
      · simp only [jsIndexOf, if_neg hw, List.length_cons]
        exact Nat.succ_lt_succ (ih hrest)

theorem jsIndexOf_append_of_not_mem (v : JSVal) (a b : List JSVal) (h : v ∉ a) :
    jsIndexOf v (a ++ b) = a.length + jsIndexOf v b := by
  induction a with
  | nil => simp
  | cons w rest ih =>
    have hw : w ≠ v := fun heq => h (heq ▸ List.mem_cons_self _ _)
    show jsIndexOf v (w :: (rest ++ b)) = (w :: rest).length + jsIndexOf v b
    simp only [jsIndexOf, if_neg hw, List.length_cons]
    rw [ih (fun hm => h (List.mem_cons_of_mem _ hm))]
    omega

theorem jsIndexOf_append_of_mem (v : JSVal) (a b : List JSVal) (h : v ∈ a) :
    jsIndexOf v (a ++ b) = jsIndexOf v a := by
  induction a with
  | nil => simp at h
  | cons w rest ih =>
    by_cases hw : w = v
    · simp [jsIndexOf, hw]
    · rcases List.mem_cons.1 h with heq | hrest
      · exact absurd heq.symm hw
      · show jsIndexOf v (w :: (rest ++ b)) = jsIndexOf v (w :: rest)
        simp only [jsIndexOf, if_neg hw]
        rw [ih hrest]

theorem jsDedupFrom_eq (suf : List JSVal) : ∀ pre : List JSVal,
    jsDedupFrom (pre ++ suf) pre.length suf
      = specDistinctFirst (suf.filter (fun w => decide (w ∉ pre))) := by
  induction suf with
  | nil =>
    intro pre
    simp [jsDedupFrom, specDistinctFirst]
  | cons v rest ih =>
    intro pre
    by_cases hv : v ∈ pre
    · have hidx : jsIndexOf v (pre ++ v :: rest) < pre.length := by
        rw [jsIndexOf_append_of_mem v pre (v :: rest) hv]
        exact jsIndexOf_lt_length v pre hv
      have hne : ¬ jsIndexOf v (pre ++ v :: rest) = pre.length := by omega
      have hstep : jsDedupFrom (pre ++ v :: rest) pre.length (v :: rest)
          = jsDedupFrom (pre ++ v :: rest) (pre.length + 1) rest := by
        simp only [jsDedupFrom, if_neg hne]
      rw [hstep]
      have hre : pre ++ v :: rest = (pre ++ [v]) ++ rest := by simp
      have hlen : pre.length + 1 = (pre ++ [v]).length := by simp
      rw [hre, hlen, ih (pre ++ [v])]
      have hfil1 : rest.filter (fun w => decide (w ∉ pre ++ [v]))
          = rest.filter (fun w => decide (w ∉ pre)) := by
        refine List.filter_congr ?_
        intro w _
        refine decide_eq_decide.mpr ?_
        simp only [List.mem_append, List.mem_singleton]
        constructor
        · intro hno hw
          exact hno (Or.inl hw)
        · rintro hno (hw | rfl)
          · exact hno hw
          · exact hno hv
      have hfil2 : (v :: rest).filter (fun w => decide (w ∉ pre))
          = rest.filter (fun w => decide (w ∉ pre)) := by
        simp [List.filter_cons, hv]
      rw [hfil1, hfil2]
    · have hidx : jsIndexOf v (pre ++ v :: rest) = pre.length := by
        rw [jsIndexOf_append_of_not_mem v pre (v :: rest) hv, jsIndexOf_cons_self]
        omega
      have hstep : jsDedupFrom (pre ++ v :: rest) pre.length (v :: rest)
          = v :: jsDedupFrom (pre ++ v :: rest) (pre.length + 1) rest := by
        simp only [jsDedupFrom, if_pos hidx]
      rw [hstep]
      have hre : pre ++ v :: rest = (pre ++ [v]) ++ rest := by simp
      have hlen : pre.length + 1 = (pre ++ [v]).length := by simp
      rw [hre, hlen, ih (pre ++ [v])]
      have hfil2 : (v :: rest).filter (fun w => decide (w ∉ pre))
          = v :: rest.filter (fun w => decide (w ∉ pre)) := by
        simp [List.filter_cons, hv]
      rw [hfil2]
      have hsdf : specDistinctFirst (v :: rest.filter (fun w => decide (w ∉ pre)))
          = v :: specDistinctFirst
              ((rest.filter (fun w => decide (w ∉ pre))).filter (fun w => decide (w ≠ v))) := by
        rw [specDistinctFirst]
      rw [hsdf]
      have hfil3 : (rest.filter (fun w => decide (w ∉ pre))).filter (fun w => decide (w ≠ v))
          = rest.filter (fun w => decide (w ∉ pre ++ [v])) := by
        rw [List.filter_filter]
        refine List.filter_congr ?_
        intro w _
        by_cases h1 : w = v
        · subst h1
          simp [hv]
        · by_cases h2 : w ∈ pre
          · simp [h1, h2]
          · simp [h1, h2]
      rw [hfil3]

theorem jsDedup_eq_specDistinctFirst (l : List JSVal) : jsDedup l = specDistinctFirst l := by
  have h := jsDedupFrom_eq l []
  simp only [List.nil_append, List.length_nil] at h
  rw [jsDedup, h]
  congr 1
  refine (List.filter_eq_self.2 ?_)
  intro w _
  simp

theorem specDistinctFirst_sublist (l : List JSVal) : (specDistinctFirst l).Sublist l := by
  induction l using specDistinctFirst.induct with
  | case1 => rw [specDistinctFirst]
  | case2 v rest ih =>
    rw [specDistinctFirst]
    exact List.Sublist.cons₂ v (ih.trans (List.filter_sublist _))

theorem specDistinctFirst_mem (l : List JSVal) (v : JSVal) :
    v ∈ specDistinctFirst l ↔ v ∈ l := by
  induction l using specDistinctFirst.induct with
  | case1 => rw [specDistinctFirst]
  | case2 w rest ih =>
    rw [specDistinctFirst]
    constructor
    · intro h
      rcases List.mem_cons.1 h with rfl | hrest
      · exact List.mem_cons_self _ _
      · exact List.mem_cons_of_mem _ (List.mem_filter.1 (ih.1 hrest)).1
    · intro h
      rcases List.mem_cons.1 h with rfl | hrest
      · exact List.mem_cons_self _ _
      · by_cases hv : v = w
        · exact hv ▸ List.mem_cons_self _ _
        · exact List.mem_cons_of_mem _ (ih.2 (List.mem_filter.2 ⟨hrest, by simp [hv]⟩))

theorem specDistinctFirst_nodup (l : List JSVal) : (specDistinctFirst l).Nodup := by
  induction l using specDistinctFirst.induct with
  | case1 =>
    rw [specDistinctFirst]
    exact List.nodup_nil
  | case2 v rest ih =>
    rw [specDistinctFirst]
    refine List.nodup_cons.2 ⟨?_, ih⟩
    intro hmem
    have := (specDistinctFirst_mem _ v).1 hmem
    simp at this

theorem specDistinctFirst_of_nodup (l : List JSVal) (h : l.Nodup) :
    specDistinctFirst l = l := by
  induction l with
  | nil => rw [specDistinctFirst]
  | cons v rest ih =>
    rw [specDistinctFirst]
    have hfil : rest.filter (fun w => decide (w ≠ v)) = rest := by
      refine List.filter_eq_self.2 ?_
      intro w hw
      have hne : w ≠ v := by
        intro heq
        exact (List.nodup_cons.1 h).1 (heq ▸ hw)
      simp [hne]
    rw [hfil, ih (List.nodup_cons.1 h).2]

theorem specDistinctFirst_length_eq_iff (l : List JSVal) :
    (specDistinctFirst l).length = l.length ↔ l.Nodup := by
  constructor
  · intro h
    have heq : specDistinctFirst l = l := (specDistinctFirst_sublist l).eq_of_length h
    rw [← heq]
    exact specDistinctFirst_nodup l
  · intro h
    rw [specDistinctFirst_of_nodup l h]

/-! Analysis of the mapping-mode constructor loop, appending rows to an
auto-mode construction, and the reverse-lookup index bridge. -/

theorem objectLoop_ok_shape {σ : Type} (entries : List (String × ObjEntry σ)) (o : Enum σ)
    (hnd : (entries.map Prod.fst).Nodup)
    (hfresh : ∀ p ∈ entries, findProp? o.props p.1 = none)
    (hext : o.extensible = true) :
    objectLoop entries o
      = Except.ok (Enum.mk
          (o.props ++ entries.map (fun p => (p.1, objEntryMember p.2))) true) := by
  induction entries generalizing o with
  | nil =>
    simp only [objectLoop, List.map_nil, List.append_nil]
    rw [show Enum.mk o.props true = o by rw [← hext]]
  | cons p rest ih =>
    obtain ⟨k, ent⟩ := p
    have hndc := hnd
    rw [List.map_cons, List.nodup_cons] at hndc
    have hdef : defineOwnProperty o k (objEntryMember ent)
        = some (Enum.mk (o.props ++ [(k, objEntryMember ent)]) true) := by
      rw [defineOwnProperty, hfresh (k, ent) (List.mem_cons_self _ _)]
      simp [hext]
    simp only [objectLoop]
    rw [hdef]
    show objectLoop rest (Enum.mk (o.props ++ [(k, objEntryMember ent)]) true) = _
    rw [ih (Enum.mk (o.props ++ [(k, objEntryMember ent)]) true) hndc.2 ?_ rfl]
    · simp [List.append_assoc]
    · intro q hq
      show findProp? (o.props ++ [(k, objEntryMember ent)]) q.1 = none
      rw [findProp?_append]
      rw [hfresh q (List.mem_cons_of_mem _ hq)]
      have hne : ¬ k = q.1 := by
        intro heq
        exact hndc.1 (heq ▸ List.mem_map.2 ⟨q, hq, rfl⟩)
      simp [findProp?, hne]

theorem construct_object_ok {σ : Type} (cc : String → String)
    (entries : List (String × ObjEntry σ)) (n : Nat) (e : Enum σ) (m : Nat)
    (hnd : (entries.map Prod.fst).Nodup)
    (h : Enum.construct cc (EnumInput.object entries) false n = (Except.ok e, m)) :
    e.props = entries.map (fun p => (p.1, objEntryMember p.2))
      ∧ e.extensible = false ∧ m = n := by
  rw [Enum.construct] at h
  simp only [Bool.false_eq_true, if_false] at h
  have hshape := objectLoop_ok_shape (σ := σ) entries (Enum.mk [] true) hnd (fun p hp => rfl) rfl
  rw [hshape] at h
  simp only [Prod.mk.injEq, Except.ok.injEq] at h
  obtain ⟨he, hm⟩ := h
  refine ⟨?_, ?_, hm.symm⟩
  · rw [← he]
    simp
  · rw [← he]

theorem autoLoop_append {σ : Type} (cc : String → String) (xs ys : List String) (o : Enum σ) :
    autoLoop cc (xs ++ ys) o = match autoLoop cc xs o with
      | Except.ok q => autoLoop cc ys q
      | Except.error q => Except.error q := by
  induction xs generalizing o with
  | nil => simp [autoLoop]
  | cons x rest ih =>
    show autoLoop cc (x :: (rest ++ ys)) o = _
    simp only [autoLoop]
    rcases hdef : defineOwnProperty o (cc x) (Member.value (JSVal.str x)) with _ | o2
    · rfl
    · exact ih o2

theorem jsFindIndex_zip_find? (v : JSVal) (vs : List JSVal) : ∀ ks : List String,
    ks.length = vs.length →
    (match jsFindIndex v vs with
      | some i => ks[i]?
      | none => none)
      = (List.find? (fun p => decide (p.2 = v)) (ks.zip vs)).map Prod.fst := by
  induction vs with
  | nil =>
    intro ks hlen
    simp [jsFindIndex]
  | cons w rest ih =>
    intro ks hlen
    cases ks with
    | nil => simp at hlen
    | cons k krest =>
      by_cases hw : w = v
      · subst hw
        simp [jsFindIndex, List.zip_cons_cons, List.find?_cons_of_pos]
      · have hlen2 : krest.length = rest.length := by
          simpa using hlen
        have hrec := ih krest hlen2
        simp only [jsFindIndex, if_neg hw, List.zip_cons_cons]
        rw [List.find?_cons_of_neg _ (by simp [hw])]
        rcases hfi : jsFindIndex v rest with _ | i
        · rw [hfi] at hrec
          simpa using hrec
        · rw [hfi] at hrec
          simpa using hrec

/-! Hex rendering of InvalidCommandError. -/

theorem natToHexCore_small (d : Nat) (fuel : Nat) (h : d < 16) :
    natToHexCore d (fuel + 1) = [hexDigit d] := by
  simp [natToHexCore, h]

theorem natToHex_small (d : Nat) (h : d < 16) : natToHex d = String.mk [hexDigit d] := by
  rw [natToHex, natToHexCore_small d d h]

theorem natToHexCore_step (d fuel : Nat) (h : ¬ d < 16) :
    natToHexCore d (fuel + 1) = natToHexCore (d / 16) fuel ++ [hexDigit (d % 16)] := by
  simp [natToHexCore, h]

theorem natToHexCore_byte (d fuel : Nat) (h16 : 16 ≤ d) (h256 : d < 256) (hfuel : 1 ≤ fuel) :
    natToHexCore d (fuel + 1) = [hexDigit (d / 16), hexDigit (d % 16)] := by
  rw [natToHexCore_step d fuel (by omega)]
  obtain ⟨f2, rfl⟩ : ∃ f2, fuel = f2 + 1 := ⟨fuel - 1, by omega⟩
  rw [natToHexCore_small _ _ (by omega)]
  rfl

theorem natToHex_byte (d : Nat) (h16 : 16 ≤ d) (h256 : d < 256) :
    natToHex d = String.mk [hexDigit (d / 16), hexDigit (d % 16)] := by
  rw [natToHex, natToHexCore_byte d d h16 h256 (by omega)]

theorem d2h_byte (d : Nat) (h : d < 256) :
    d2h d = String.mk [hexDigit (d / 16), hexDigit (d % 16)] := by
  by_cases h16 : d < 16
  · rw [d2h, natToHex_small d h16]
    have hlen : (String.mk [hexDigit d]).length = 1 := rfl
    rw [hlen]
    simp only [if_pos rfl]
    have hdiv : d / 16 = 0 := by omega
    have hmod : d % 16 = d := by omega
    rw [hdiv, hmod]
    rfl
  · rw [d2h, natToHex_byte d (by omega) h]
    have hlen : (String.mk [hexDigit (d / 16), hexDigit (d % 16)]).length = 2 := rfl
    rw [hlen]
    simp

/-! Claim theorems. -/

/-- C1: for every Enum constructed from an ordered sequence of string keys
with the auto flag false, the values assigned to the keys are strictly
increasing non-negative integers in declaration order, drawn from the
process-wide counter (the construction consumes exactly one counter value
per key, handing the advanced counter to the next construction), and they
are disjoint from the values of any iota-mode Enum whose construction
finished at or before this counter value. -/
theorem iota_mode_spec {σ : Type} (cc cc2 : String → String) (ks : List String) (n : Nat)
    (e : Enum σ) (m : Nat)
    (h : Enum.construct cc (EnumInput.array ks) false n = (Except.ok e, m)) :
    (∀ s : σ, Enum.readAll e s
        = ((List.range ks.length).map (fun i => JSVal.num ((n + i : Nat) : Int)), s))
    ∧ m = n + ks.length
    ∧ ks.Nodup
    ∧ (∀ s : σ, ((Enum.readAll e s).1).Pairwise
        (fun a b => ∃ x y : Nat, a = JSVal.num (x : Int) ∧ b = JSVal.num (y : Int) ∧ x < y))
    ∧ (∀ (ks2 : List String) (n2 m2 : Nat) (e2 : Enum σ),
        Enum.construct cc2 (EnumInput.array ks2) false n2 = (Except.ok e2, m2) → m2 ≤ n →
        ∀ (s s2 : σ) (v : JSVal), v ∈ (Enum.readAll e2 s2).1 → v ∉ (Enum.readAll e s).1) := by
  obtain ⟨hprops, hextf, hm, hnd⟩ := construct_iota_ok cc ks n e m h
  have hra := construct_iota_readAll cc ks n e m h
  refine ⟨hra, hm, hnd, ?_, ?_⟩
  · intro s
    rw [hra s]
    simp only
    rw [List.pairwise_map]
    refine (List.pairwise_lt_range _).imp ?_
    intro i j hij
    exact ⟨n + i, n + j, rfl, rfl, by omega⟩
  · intro ks2 n2 m2 e2 h2 hle s s2 v hv2 hv1
    obtain ⟨_, _, hm2, _⟩ := construct_iota_ok cc2 ks2 n2 e2 m2 h2
    have hra2 := construct_iota_readAll cc2 ks2 n2 e2 m2 h2 s2
    rw [hra2] at hv2
    rw [hra s] at hv1
    simp only at hv1 hv2
    obtain ⟨i, hi, rfl⟩ := List.mem_map.1 hv2
    obtain ⟨j, hj, heq⟩ := List.mem_map.1 hv1
    rw [List.mem_range] at hi hj
    have hnat : n + j = n2 + i := by
      have hint := JSVal.num.inj heq
      exact_mod_cast hint
    omega

/-- Witness for C1 at a concrete input: two keys constructed with the
counter at five yield the values five and six and leave the counter at
seven. -/
theorem iota_mode_spec_witness :
    Enum.readAll
        (Enum.mk [("A", Member.value (JSVal.num 5)), ("B", Member.value (JSVal.num 6))] false) ()
      = ([JSVal.num 5, JSVal.num 6], ())
    ∧ (7 : Nat) = 5 + (["A", "B"] : List String).length := by
  have h := iota_mode_spec (σ := Unit) (fun t => t) (fun t => t) ["A", "B"] 5
    (Enum.mk [("A", Member.value (JSVal.num 5)), ("B", Member.value (JSVal.num 6))] false) 7 rfl
  exact ⟨(h.1 ()).trans (by decide), h.2.1⟩

/-- C5: constructing with the auto flag and a mapping input throws a
TypeError, with the empty property list of the error witnessing that no
property had been defined before the throw, and the counter untouched. -/
theorem auto_with_mapping_type_error {σ : Type} (cc : String → String)
    (entries : List (String × ObjEntry σ)) (n : Nat) :
    Enum.construct cc (EnumInput.object entries) true n = (Except.error [], n) := by
  rw [Enum.construct]
  simp

/-- C6: after a successful construction of any mode the instance is
frozen: it is non-extensible, defining a fresh key fails, and any
defineProperty call that does succeed leaves the instance unchanged. -/
theorem enum_frozen_after_construct {σ : Type} (cc : String → String) (input : EnumInput σ)
    (auto : Bool) (n : Nat) (e : Enum σ) (m : Nat)
    (h : Enum.construct cc input auto n = (Except.ok e, m)) :
    e.extensible = false
    ∧ (∀ (k : String) (mem : Member σ),
        findProp? e.props k = none → defineOwnProperty e k mem = none)
    ∧ (∀ (k : String) (mem : Member σ) (o2 : Enum σ),
        defineOwnProperty e k mem = some o2 → o2 = e) := by
  have hext : e.extensible = false := by
    rcases input with rows | entries
    · rw [Enum.construct] at h
      rcases auto with _ | _
      · simp only [Bool.false_eq_true, if_false] at h
        rcases hloop : iotaLoop (σ := σ) rows (Enum.mk [] true) n with ⟨res, n2⟩
        rcases res with o | o
        · rw [hloop] at h
          simp at h
        · rw [hloop] at h
          simp only [Prod.mk.injEq, Except.ok.injEq] at h
          rw [← h.1]
      · simp only [if_true] at h
        rcases hloop : autoLoop (σ := σ) cc rows (Enum.mk [] true) with o | o
        · rw [hloop] at h
          simp at h
        · rw [hloop] at h
          simp only [Prod.mk.injEq, Except.ok.injEq] at h
          rw [← h.1]
    · rw [Enum.construct] at h
      rcases auto with _ | _
      · simp only [Bool.false_eq_true, if_false] at h
        rcases hloop : objectLoop (σ := σ) entries (Enum.mk [] true) with o | o
        · rw [hloop] at h
          simp at h
        · rw [hloop] at h
          simp only [Prod.mk.injEq, Except.ok.injEq] at h
          rw [← h.1]
      · simp only [if_true] at h
        simp at h
  refine ⟨hext, ?_, ?_⟩
  · intro k mem hnone
    rw [defineOwnProperty, hnone]
    show (if e.extensible = true
      then some (Enum.mk (e.props ++ [(k, mem)]) e.extensible) else none) = none
    rw [hext]
    simp
  · intro k mem o2 hdef
    rcases defineOwnProperty_cases e o2 k mem hdef with ⟨old, _, _, rfl⟩ | ⟨_, hext2, _⟩
    · rfl
    · rw [hext] at hext2
      simp at hext2

/-- Witness for C6 at a concrete input: the instance built from one iota
key rejects the definition of a fresh key. -/
theorem enum_frozen_after_construct_witness :
    defineOwnProperty (σ := Unit) (Enum.mk [("A", Member.value (JSVal.num 0))] false) "B"
      (Member.value (JSVal.num 9)) = none
    ∧ (Enum.mk (σ := Unit) [("A", Member.value (JSVal.num 0))] false).extensible = false := by
  have h := enum_frozen_after_construct (σ := Unit) (fun t => t)
    (EnumInput.array ["A"]) false 0 (Enum.mk [("A", Member.value (JSVal.num 0))] false) 1 rfl
  exact ⟨h.2.1 "B" (Member.value (JSVal.num 9)) rfl, h.1⟩

/-- C7: findForValue returns the key whose current resolved value is the
first strict-equality match in declaration order, pairing the keys with
the values resolved at call time, and the absent marker none (undefined)
when no resolved value matches; the state is the one left by resolving
all values. -/
theorem findForValue_spec {σ : Type} (e : Enum σ) (v : JSVal) (s : σ) :
    (Enum.findForValue e v s).1
      = (((Enum.keys e).zip (Enum.readAll e s).1).find? (fun p => decide (p.2 = v))).map Prod.fst
    ∧ (Enum.findForValue e v s).2 = (Enum.readAll e s).2 := by
  have hlen : (Enum.keys e).length = (Enum.readAll e s).1.length := by
    rw [Enum.readAll, readList_length]
  rcases hfi : jsFindIndex v (Enum.readAll e s).1 with _ | i
  · have hz : (((Enum.keys e).zip (Enum.readAll e s).1).find?
        (fun p => decide (p.2 = v))).map Prod.fst = none := by
      have hb := jsFindIndex_zip_find? v (Enum.readAll e s).1 (Enum.keys e) hlen
      rw [hfi] at hb
      exact hb.symm
    have hval : Enum.findForValue e v s = ((none : Option String), (Enum.readAll e s).2) := by
      show (match jsFindIndex v (Enum.readAll e s).1 with
        | some i => ((Enum.keys e)[i]?, (Enum.readAll e s).2)
        | none => (none, (Enum.readAll e s).2)) = ((none : Option String), (Enum.readAll e s).2)
      rw [hfi]
    rw [hval, hz]
    exact ⟨rfl, rfl⟩
  · have hz : (((Enum.keys e).zip (Enum.readAll e s).1).find?
        (fun p => decide (p.2 = v))).map Prod.fst = (Enum.keys e)[i]? := by
      have hb := jsFindIndex_zip_find? v (Enum.readAll e s).1 (Enum.keys e) hlen
      rw [hfi] at hb
      exact hb.symm
    have hval : Enum.findForValue e v s = ((Enum.keys e)[i]?, (Enum.readAll e s).2) := by
      show (match jsFindIndex v (Enum.readAll e s).1 with
        | some i => ((Enum.keys e)[i]?, (Enum.readAll e s).2)
        | none => (none, (Enum.readAll e s).2)) = ((Enum.keys e)[i]?, (Enum.readAll e s).2)
      rw [hfi]
    rw [hval, hz]
    exact ⟨rfl, rfl⟩

/-- C8: hasValue is true exactly when the queried value occurs in the
values list resolved at call time, under strict (structural, uncoerced)
equality; numbers never equal strings or booleans. -/
theorem hasValue_spec {σ : Type} (e : Enum σ) (v : JSVal) (s : σ) :
    ((Enum.hasValue e v s).1 = true ↔ v ∈ (Enum.values e s).1)
    ∧ (Enum.hasValue e v s).2 = (Enum.values e s).2
    ∧ (∀ (x : Int) (t : String), JSVal.num x ≠ JSVal.str t)
    ∧ (∀ (x : Int) (b : Bool), JSVal.num x ≠ JSVal.bool b) := by
  refine ⟨?_, rfl, ?_, ?_⟩
  · show ((Enum.values e s).1.any (fun w => decide (w = v)) = true ↔ v ∈ (Enum.values e s).1)
    rw [List.any_eq_true]
    constructor
    · rintro ⟨w, hw, hwv⟩
      rw [decide_eq_true_eq] at hwv
      exact hwv ▸ hw
    · intro hv
      exact ⟨v, hv, by simp⟩
  · intro x t hxt
    cases hxt
  · intro x b hxb
    cases hxb

/-- C9: values is the resolved value list with duplicates collapsed to
their first occurrence in declaration order (specDistinctFirst states the
spec wording); hence it has no duplicates, is an order-preserving
selection from the resolved reads, keeps exactly the values that occur,
its length is at most the number of keys, and the lengths coincide
exactly when all resolved values are distinct. -/
theorem values_dedup_spec {σ : Type} (e : Enum σ) (s : σ) :
    (Enum.values e s).1 = specDistinctFirst (Enum.readAll e s).1
    ∧ ((Enum.values e s).1).Nodup
    ∧ ((Enum.values e s).1).Sublist (Enum.readAll e s).1
    ∧ (∀ v, v ∈ (Enum.values e s).1 ↔ v ∈ (Enum.readAll e s).1)
    ∧ (Enum.readAll e s).1.length = (Enum.keys e).length
    ∧ (Enum.values e s).1.length ≤ (Enum.keys e).length
    ∧ ((Enum.values e s).1.length = (Enum.keys e).length ↔ ((Enum.readAll e s).1).Nodup) := by
  have h1 : (Enum.values e s).1 = jsDedup (Enum.readAll e s).1 := rfl
  have hlen : (Enum.readAll e s).1.length = (Enum.keys e).length := by
    rw [Enum.readAll, readList_length]
  rw [h1, jsDedup_eq_specDistinctFirst]
  refine ⟨rfl, specDistinctFirst_nodup _, specDistinctFirst_sublist _,
    fun v => specDistinctFirst_mem _ v, hlen, ?_, ?_⟩
  · rw [← hlen]
    exact (specDistinctFirst_sublist _).length_le
  · rw [← hlen]
    exact specDistinctFirst_length_eq_iff _

/-- C3: for an Enum constructed from a mapping input (unique keys, as
Object.keys yields), a key mapped to a plain value reads as exactly that
value on every read with no state change, a key mapped to a zero-argument
function re-invokes the function on every read at the current state, and
every value resolved during a values() call appears in that returned
values() list. -/
theorem mapping_mode_read_spec {σ : Type} (cc : String → String)
    (entries : List (String × ObjEntry σ)) (n : Nat) (e : Enum σ) (m : Nat)
    (hnd : (entries.map Prod.fst).Nodup)
    (h : Enum.construct cc (EnumInput.object entries) false n = (Except.ok e, m)) :
    (∀ (k : String) (v : JSVal), (k, ObjEntry.val v) ∈ entries →
        ∀ s : σ, Enum.read e k s = (v, s))
    ∧ (∀ (k : String) (f : σ → JSVal × σ), (k, ObjEntry.fn f) ∈ entries →
        ∀ s : σ, Enum.read e k s = f s)
    ∧ (∀ (s : σ) (v : JSVal), v ∈ (Enum.readAll e s).1 → v ∈ (Enum.values e s).1)
    ∧ m = n := by
  obtain ⟨hprops, hextf, hm⟩ := construct_object_ok cc entries n e m hnd h
  have hnd2 : ((entries.map (fun p => (p.1, objEntryMember p.2))).map Prod.fst).Nodup := by
    rw [List.map_map]
    have hcomp : (Prod.fst ∘ fun p : String × ObjEntry σ => (p.1, objEntryMember p.2))
        = Prod.fst := by
      funext p
      rfl
    rw [hcomp]
    exact hnd
  refine ⟨?_, ?_, ?_, hm⟩
  · intro k v hmem s
    have hfind : findProp? e.props k = some (Member.value v) := by
      rw [hprops]
      refine findProp?_of_mem_nodup _ _ _ ?_ hnd2
      exact List.mem_map.2 ⟨(k, ObjEntry.val v), hmem, rfl⟩
    rw [Enum.read, hfind]
  · intro k f hmem s
    have hfind : findProp? e.props k = some (Member.get f) := by
      rw [hprops]
      refine findProp?_of_mem_nodup _ _ _ ?_ hnd2
      exact List.mem_map.2 ⟨(k, ObjEntry.fn f), hmem, rfl⟩
    rw [Enum.read, hfind]
  · intro s v hv
    have hval : (Enum.values e s).1 = specDistinctFirst (Enum.readAll e s).1 := by
      rw [show (Enum.values e s).1 = jsDedup (Enum.readAll e s).1 from rfl,
        jsDedup_eq_specDistinctFirst]
    rw [hval, specDistinctFirst_mem]
    exact hv

/-- Witness for C3 at a concrete input with the state counting getter
invocations: the fixed member reads as seven without touching the state,
and the computed member returns a fresh result on each of two successive
reads (zero then one), so the two reads differ. -/
theorem mapping_mode_read_spec_witness :
    Enum.read (Enum.mk [("FIXED", Member.value (JSVal.num 7)),
        ("COUNT", Member.get (fun t : Nat => (JSVal.num (t : Int), t + 1)))] false) "FIXED" 0
      = (JSVal.num 7, 0)
    ∧ Enum.read (Enum.mk [("FIXED", Member.value (JSVal.num 7)),
        ("COUNT", Member.get (fun t : Nat => (JSVal.num (t : Int), t + 1)))] false) "COUNT" 0
      = (JSVal.num 0, 1)
    ∧ Enum.read (Enum.mk [("FIXED", Member.value (JSVal.num 7)),
        ("COUNT", Member.get (fun t : Nat => (JSVal.num (t : Int), t + 1)))] false) "COUNT" 1
      = (JSVal.num 1, 2)
    ∧ (JSVal.num 0 : JSVal) ≠ JSVal.num 1 := by
  have h := mapping_mode_read_spec (σ := Nat) (fun t => t)
    [("FIXED", ObjEntry.val (JSVal.num 7)),
     ("COUNT", ObjEntry.fn (fun t : Nat => (JSVal.num (t : Int), t + 1)))] 0
    (Enum.mk [("FIXED", Member.value (JSVal.num 7)),
        ("COUNT", Member.get (fun t : Nat => (JSVal.num (t : Int), t + 1)))] false) 0
    (by decide) rfl
  refine ⟨h.1 "FIXED" (JSVal.num 7) (List.Mem.head _) 0, ?_, ?_, by decide⟩
  · exact h.2.1 "COUNT" (fun t : Nat => (JSVal.num (t : Int), t + 1))
      (List.Mem.tail _ (List.Mem.head _)) 0
  · exact h.2.1 "COUNT" (fun t : Nat => (JSVal.num (t : Int), t + 1))
      (List.Mem.tail _ (List.Mem.head _)) 1

/-- C2 as amended: for an Enum constructed with the auto flag from
pairwise-distinct input strings, the exposed keys are the normalizations
of the inputs in declaration order, the value stored under each
normalized key is the original unnormalized string, values() returns
exactly the original strings in order, and the iota counter is untouched.
The normalization cc is the external constant-case dependency, kept
abstract here. -/
theorem auto_mode_distinct_spec {σ : Type} (cc : String → String) (rows : List String)
    (n : Nat) (e : Enum σ) (m : Nat)
    (hnd : rows.Nodup)
    (h : Enum.construct cc (EnumInput.array rows) true n = (Except.ok e, m)) :
    Enum.keys e = rows.map cc
    ∧ (∀ r ∈ rows, findProp? e.props (cc r) = some (Member.value (JSVal.str r)))
    ∧ (∀ s : σ, Enum.values e s = (rows.map (fun r => JSVal.str r), s))
    ∧ m = n := by
  obtain ⟨hprops, hextf, hm, hccnd⟩ := construct_auto_ok cc rows n e m hnd h
  have hkeys : Enum.keys e = rows.map cc := by
    rw [Enum.keys, hprops, List.map_map]
    refine List.map_congr_left ?_
    intro r _
    rfl
  refine ⟨hkeys, ?_, ?_, hm⟩
  · intro r hr
    rw [hprops]
    refine findProp?_of_mem_nodup _ _ _ (List.mem_map.2 ⟨r, hr, rfl⟩) ?_
    rw [List.map_map]
    have hcomp : (Prod.fst ∘ fun r2 : String =>
        ((cc r2, Member.value (JSVal.str r2)) : String × Member σ)) = cc := by
      funext r2
      rfl
    rw [hcomp]
    exact hccnd
  · intro s
    have hndm : (e.props.map Prod.fst).Nodup := by
      rw [show e.props.map Prod.fst = Enum.keys e from rfl, hkeys]
      exact hccnd
    have hv : ∀ p ∈ e.props, ∃ v, p.2 = Member.value v := by
      intro p hp
      rw [hprops] at hp
      obtain ⟨r, hr, rfl⟩ := List.mem_map.1 hp
      exact ⟨JSVal.str r, rfl⟩
    have hra := readAll_of_value_props e hndm hv s
    have hmap : e.props.map (fun p => memberVal p.2) = rows.map (fun r => JSVal.str r) := by
      rw [hprops, List.map_map]
      refine List.map_congr_left ?_
      intro r _
      rfl
    have hv1 : Enum.values e s = (jsDedup (Enum.readAll e s).1, (Enum.readAll e s).2) := rfl
    rw [hv1, hra]
    simp only
    rw [hmap, jsDedup_eq_specDistinctFirst, specDistinctFirst_of_nodup]
    exact List.Nodup.map (fun a b hab => JSVal.str.inj hab) hnd

/-- Counterexample to C2 as frozen: the auto-mode construction from the
sequence with the same string twice succeeds (the identical redefinition
is a silent no-op), yet the instance has a single key and values()
returns one string, not the two original input strings in order. -/
theorem auto_mode_duplicate_counterexample :
    (Enum.construct (σ := Unit) constantCase (EnumInput.array ["a", "a"]) true 0).1
      = Except.ok (Enum.mk [("A", Member.value (JSVal.str "a"))] false)
    ∧ (Enum.values (σ := Unit) (Enum.mk [("A", Member.value (JSVal.str "a"))] false) ()).1
      = [JSVal.str "a"]
    ∧ [JSVal.str "a"] ≠ [JSVal.str "a", JSVal.str "a"] := by
  refine ⟨rfl, by decide, by decide⟩

/-- Witness for the amended C2 at a concrete input: the italic and bold
strings normalize to upper-snake-case keys while values() keeps the
original lowercase strings in order. -/
theorem auto_mode_distinct_spec_witness :
    Enum.keys (σ := Unit) (Enum.mk [("ITALIC", Member.value (JSVal.str "italic")),
        ("BOLD", Member.value (JSVal.str "bold"))] false) = ["ITALIC", "BOLD"]
    ∧ (Enum.values (σ := Unit) (Enum.mk [("ITALIC", Member.value (JSVal.str "italic")),
        ("BOLD", Member.value (JSVal.str "bold"))] false) ())
      = ([JSVal.str "italic", JSVal.str "bold"], ()) := by
  have h := auto_mode_distinct_spec (σ := Unit) constantCase ["italic", "bold"] 0
    (Enum.mk [("ITALIC", Member.value (JSVal.str "italic")),
        ("BOLD", Member.value (JSVal.str "bold"))] false) 0 (by decide) rfl
  exact ⟨(h.1).trans (by decide), (h.2.2.1 ()).trans (by decide)⟩

/-- C4: the InvalidCommandError message is the type label prefixed
diagnostic, with a numeric target rendered as the two lowercase
left-zero-padded hex digits of the byte, a non-numeric target rendered
verbatim in quotes after called, and the joined context appended exactly
when the context is non-empty; including the two concrete examples of the
spec. -/
theorem invalid_command_error_message_spec :
    (∀ (ty t : String) (ctx : List String),
      invalidCommandMessage ty (ErrTarget.str t) ctx
        = "Can\x27t find " ++ ty ++ " " ++ "called \"" ++ t ++ "\""
          ++ (if ctx.length > 0 then " (" ++ String.intercalate ", " ctx ++ ")" else ""))
    ∧ (∀ (ty : String) (d : Nat) (ctx : List String), d < 256 →
      invalidCommandMessage ty (ErrTarget.num d) ctx
        = "Can\x27t find " ++ ty ++ " " ++ "with the value "
          ++ String.mk [hexDigit (d / 16), hexDigit (d % 16)]
          ++ (if ctx.length > 0 then " (" ++ String.intercalate ", " ctx ++ ")" else ""))
    ∧ (∀ d : Nat, d < 256 → (d2h d).length = 2)
    ∧ (∀ i : Nat, i < 16 → hexDigit i ∈ ("0123456789abcdef").data)
    ∧ invalidCommandMessage "command" (ErrTarget.num 15) []
        = "Can\x27t find command with the value 0f"
    ∧ invalidCommandMessage "class" (ErrTarget.str "Foo") ["bar"]
        = "Can\x27t find class called \"Foo\" (bar)" := by
  refine ⟨?_, ?_, ?_, ?_, by decide, by decide⟩
  · intro ty t ctx
    by_cases hc : ctx.length > 0
    · simp only [invalidCommandMessage, if_pos hc, String.append_assoc]
    · simp only [invalidCommandMessage, if_neg hc, String.append_assoc, String.append_empty]
  · intro ty d ctx hd
    by_cases hc : ctx.length > 0
    · simp only [invalidCommandMessage, d2h_byte d hd, if_pos hc, String.append_assoc]
    · simp only [invalidCommandMessage, d2h_byte d hd, if_neg hc, String.append_assoc,
        String.append_empty]
  · intro d hd
    rw [d2h_byte d hd]
    rfl
  · intro i hi
    interval_cases i <;> decide

/-- Witness for C4 at a concrete input: the byte two hundred fifty-five
renders as the two lowercase digits ff and the two context strings are
joined in parentheses. -/
theorem invalid_command_error_message_spec_witness :
    invalidCommandMessage "uuid" (ErrTarget.num 255) ["a", "b"]
      = "Can\x27t find uuid with the value ff (a, b)" := by
  have h := invalid_command_error_message_spec
  exact (h.2.1 "uuid" 255 ["a", "b"] (by decide)).trans (by decide)

/-- Counterexample to C10 as frozen: in iota mode the duplicate key does
not silently overwrite; the second defineProperty throws a TypeError (the
construction result is the error carrying the single property defined),
although the duplicate occurrence did consume its own counter value (the
counter ends at two). -/
theorem duplicate_iota_counterexample :
    Enum.construct (σ := Unit) (fun t => t) (EnumInput.array ["A", "A"]) false 0
      = (Except.error [("A", Member.value (JSVal.num 0))], 2)
    ∧ (∀ e : Enum Unit,
        (Enum.construct (σ := Unit) (fun t => t) (EnumInput.array ["A", "A"]) false 0).1
          ≠ Except.ok e) := by
  refine ⟨rfl, ?_⟩
  intro e he
  rw [show (Enum.construct (σ := Unit) (fun t => t) (EnumInput.array ["A", "A"]) false 0).1
      = Except.error [("A", Member.value (JSVal.num 0))] from rfl] at he
  exact Except.noConfusion he

/-- C10 as amended: each occurrence of a duplicate key still consumes its
own iota value or normalized identifier, but the second occurrence does
not silently overwrite: iota-mode construction succeeds only when the
keys are pairwise distinct and otherwise throws a TypeError; in auto mode
an exactly-repeated string is a silent no-op that keeps the first
definition and the same instance, while two distinct strings normalizing
to the same identifier throw a TypeError whose payload keeps the first
definition. -/
theorem duplicate_sequence_spec {σ : Type} (cc : String → String) (ks rows : List String)
    (n : Nat) :
    (∀ (e : Enum σ) (m : Nat),
        Enum.construct cc (EnumInput.array ks) false n = (Except.ok e, m) → ks.Nodup)
    ∧ (¬ ks.Nodup → ∃ ps, (Enum.construct (σ := σ) cc (EnumInput.array ks) false n).1
        = Except.error ps)
    ∧ (∀ (e : Enum σ) (m : Nat) (r : String),
        Enum.construct cc (EnumInput.array rows) true n = (Except.ok e, m) → r ∈ rows →
        Enum.construct cc (EnumInput.array (rows ++ [r])) true n = (Except.ok e, m))
    ∧ (∀ r1 r2 : String, r1 ≠ r2 → cc r1 = cc r2 →
        (Enum.construct (σ := σ) cc (EnumInput.array [r1, r2]) true n).1
          = Except.error [(cc r1, Member.value (JSVal.str r1))]) := by
  refine ⟨?_, ?_, ?_, ?_⟩
  · intro e m h
    exact (construct_iota_ok cc ks n e m h).2.2.2
  · intro hnd
    rcases hres : Enum.construct (σ := σ) cc (EnumInput.array ks) false n with ⟨res, n2⟩
    rcases res with ps | e
    · exact ⟨ps, rfl⟩
    · exact absurd ((construct_iota_ok cc ks n e n2 hres).2.2.2) hnd
  · intro e m r h hr
    rw [Enum.construct] at h
    simp only [if_true] at h
    rcases hloop : autoLoop (σ := σ) cc rows (Enum.mk [] true) with o | o
    · rw [hloop] at h
      simp at h
    · rw [hloop] at h
      have hbind := autoLoop_ok_binding cc rows (Enum.mk [] true) o hloop r hr
      have hdef : defineOwnProperty o (cc r) (Member.value (JSVal.str r)) = some o := by
        rw [defineOwnProperty, hbind]
        show (if memberSame (Member.value (JSVal.str r)) (Member.value (JSVal.str r)) = true
          then some o else none) = some o
        simp [memberSame]
      rw [Enum.construct]
      simp only [if_true]
      rw [autoLoop_append, hloop]
      have hone : autoLoop cc [r] o = Except.ok o := by
        simp only [autoLoop, hdef]
      show (match autoLoop cc [r] o with
        | Except.ok o2 => (Except.ok (Enum.mk o2.props false), n)
        | Except.error o2 => (Except.error o2.props, n)) = (Except.ok e, m)
      rw [hone]
      exact h
  · intro r1 r2 hne hcc
    have hdef1 : defineOwnProperty (σ := σ) (Enum.mk [] true) (cc r1)
        (Member.value (JSVal.str r1))
        = some (Enum.mk [(cc r1, Member.value (JSVal.str r1))] true) := by
      rw [defineOwnProperty]
      show (if (Enum.mk (σ := σ) [] true).extensible = true
        then some (Enum.mk ([] ++ [(cc r1, Member.value (JSVal.str r1))]) true) else none)
        = some (Enum.mk [(cc r1, Member.value (JSVal.str r1))] true)
      simp
    have hdef2 : defineOwnProperty (σ := σ)
        (Enum.mk [(cc r1, Member.value (JSVal.str r1))] true) (cc r2)
        (Member.value (JSVal.str r2)) = none := by
      rw [defineOwnProperty]
      have hfind : findProp? (σ := σ) [(cc r1, Member.value (JSVal.str r1))] (cc r2)
          = some (Member.value (JSVal.str r1)) := by
        simp [findProp?, hcc]
      rw [hfind]
      show (if memberSame (Member.value (JSVal.str r1)) (Member.value (JSVal.str r2)) = true
        then some (Enum.mk (σ := σ) [(cc r1, Member.value (JSVal.str r1))] true) else none)
        = none
      have hms : memberSame (σ := σ) (Member.value (JSVal.str r1))
          (Member.value (JSVal.str r2)) = false := by
        have hsne : JSVal.str r1 ≠ JSVal.str r2 := by
          intro heq
          exact hne (JSVal.str.inj heq)
        simp [memberSame, hsne]
      rw [hms]
      simp
    rw [Enum.construct]
    simp only [if_true]
    have hloop : autoLoop (σ := σ) cc [r1, r2] (Enum.mk [] true)
        = Except.error (Enum.mk [(cc r1, Member.value (JSVal.str r1))] true) := by
      simp only [autoLoop, hdef1, hdef2]
    rw [hloop]

/-- Witness for the amended C10 at concrete inputs: a constant normalizer
sends both iota-duplicate and auto-colliding constructions into the
TypeError branch. -/
theorem duplicate_sequence_spec_witness :
    (∃ ps, (Enum.construct (σ := Unit) (fun _ => "K") (EnumInput.array ["A", "A"]) false 0).1
        = Except.error ps)
    ∧ (Enum.construct (σ := Unit) (fun _ => "K") (EnumInput.array ["a", "b"]) true 0).1
        = Except.error [("K", Member.value (JSVal.str "a"))] := by
  have h := duplicate_sequence_spec (σ := Unit) (fun _ => "K") ["A", "A"] ["x"] 0
  exact ⟨h.2.1 (by decide), h.2.2.2 "a" "b" (by decide) rfl⟩
